import Mathlib

/-!
Verification of the AgentLaboratory utility classes
(`src/utils/prompt_manager.py` and `src/utils/directory_manager.py`).

Python strings are embedded as `List Char`.  Python's `re` module is
Unicode-aware; this development models the ASCII fragment of the character
classes `\w` and `\s`, which is the fragment the specification's claims
exercise.
-/

/-- Python `\w` (ASCII fragment): letters, digits and the underscore. -/
def isWordChar (c : Char) : Bool := c.isAlphanum || c == '_'

/-- Python `\s` and `str.split()` / `str.strip()` whitespace (ASCII fragment). -/
def pySpace (c : Char) : Bool :=
  c == ' ' || c == '\t' || c == '\n' || c == '\r' || c == '\x0b' || c == '\x0c'

/-- Characters kept by `re.sub(r'[^\w\s-]', '', query)` at prompt_manager.py line 67. -/
def keepQueryChar (c : Char) : Bool := isWordChar c || pySpace c || c == '-'

/-- Boolean test that `pat` is a leading segment of `s` (Python `str.startswith`). -/
def isStart {α : Type} [DecidableEq α] : List α → List α → Bool
  | [], _ => true
  | _ :: _, [] => false
  | a :: l, b :: s => decide (a = b) && isStart l s

/-- Boolean substring test, Python's `pat in s`. -/
def occurs (pat : List Char) : List Char → Bool
  | [] => isStart pat []
  | c :: rest => isStart pat (c :: rest) || occurs pat rest

instance {ε α : Type} [DecidableEq ε] [DecidableEq α] : DecidableEq (Except ε α) := fun a b =>
  match a, b with
  | .error e, .error f =>
    if h : e = f then .isTrue (by subst h; rfl) else .isFalse (fun hh => h (by cases hh; rfl))
  | .ok x, .ok y =>
    if h : x = y then .isTrue (by subst h; rfl) else .isFalse (fun hh => h (by cases hh; rfl))
  | .error _, .ok _ => .isFalse (fun hh => by cases hh)
  | .ok _, .error _ => .isFalse (fun hh => by cases hh)

/-- Worker for `splitWs`; `acc` holds the current piece reversed. -/
def splitWsAux : List Char → List Char → List (List Char)
  | acc, [] => if acc.isEmpty then [] else [acc.reverse]
  | acc, c :: rest =>
    if pySpace c then
      if acc.isEmpty then splitWsAux [] rest else acc.reverse :: splitWsAux [] rest
    else splitWsAux (c :: acc) rest

/-- Python `str.split()` with no separator: splits on runs of whitespace,
producing no empty pieces. -/
def splitWs (s : List Char) : List (List Char) := splitWsAux [] s

/-- Python `" ".join(pieces)`. -/
def joinSp : List (List Char) → List Char
  | [] => []
  | [p] => p
  | p :: ps => p ++ ' ' :: joinSp ps

/-- PromptManager.clean_search_query (prompt_manager.py lines 57-70):
`re.sub(r'[^\w\s-]', '', query)` followed by `" ".join(query.split())`. -/
def clean_search_query (query : List Char) : List Char :=
  joinSp (splitWs (query.filter keepQueryChar))

/-- Python `str.strip()` (ASCII whitespace fragment). -/
def pyStrip (s : List Char) : List Char :=
  ((s.dropWhile pySpace).reverse.dropWhile pySpace).reverse

/-- PromptManager.format_feedback (prompt_manager.py lines 144-156):
truncate to `max_length` characters plus `"..."` when strictly longer,
then `str.strip()`. -/
def format_feedback (feedback : List Char) (max_length : Nat) : List Char :=
  if max_length < feedback.length then pyStrip (feedback.take max_length ++ "...".data)
  else pyStrip feedback

/-- Number of occurrences of the character `c` in `s` (Python `s.count(c)`). -/
def countChar (c : Char) (s : List Char) : Nat := (s.filter (· == c)).length

/-- Python `str.splitlines` line-boundary characters. -/
def lineBreakChar (c : Char) : Bool :=
  c == '\n' || c == '\r' || c == '\x0b' || c == '\x0c' || c == '\x1c' ||
  c == '\x1d' || c == '\x1e' || c == '\x85' || c == '\u2028' || c == '\u2029'

/-- Worker for `pySplitlines`; `acc` holds the current line reversed. -/
def pySplitlinesAux : List Char → List Char → List (List Char)
  | acc, [] => if acc.isEmpty then [] else [acc.reverse]
  | acc, '\r' :: '\n' :: rest => acc.reverse :: pySplitlinesAux [] rest
  | acc, c :: rest =>
    if lineBreakChar c then acc.reverse :: pySplitlinesAux [] rest
    else pySplitlinesAux (c :: acc) rest

/-- Python `str.splitlines()` (keepends=False). -/
def pySplitlines (s : List Char) : List (List Char) := pySplitlinesAux [] s

/-- Scanner for the regex `<[^>]+>` after a `<` was consumed: `k` counts the
characters matched by `[^>]+` so far. -/
def phTail : List Char → Nat → Bool
  | [], _ => false
  | c :: rest, k => if c == '>' then decide (0 < k) else phTail rest (k + 1)

/-- `re.search(r'<[^>]+>', prompt)` is not `None` (prompt_manager.py line 124). -/
def hasPlaceholder : List Char → Bool
  | [] => false
  | c :: rest => (c == '<' && phTail rest 0) || hasPlaceholder rest

/-- PromptManager.validate_prompt (prompt_manager.py lines 100-127). -/
def validate_prompt (prompt : List Char) : List String :=
  (if countChar '"' prompt % 2 ≠ 0 then ["Mismatched quotes"] else [])
  ++ (if occurs ['\r', '\n'] prompt && occurs ['\n'] prompt
      then ["Mixed line endings"] else [])
  ++ (if (pySplitlines prompt).any (fun line => decide (120 < line.length))
      then ["Lines exceed recommended length"] else [])
  ++ (if hasPlaceholder prompt then ["Unreplaced placeholders found"] else [])

/-- Splits `s` at the first occurrence of `pat`: returns the part strictly
before the occurrence and the part strictly after it. -/
def splitFirst (pat : List Char) : List Char → Option (List Char × List Char)
  | [] => if isStart pat [] then some ([], ([] : List Char).drop pat.length) else none
  | c :: rest =>
    if isStart pat (c :: rest) then some ([], (c :: rest).drop pat.length)
    else
      match splitFirst pat rest with
      | some (a, b) => some (c :: a, b)
      | none => none

/-- The opening fence `` ```tag\n `` matched literally. -/
def fenceOpen (tag : List Char) : List Char := "```".data ++ tag ++ ['\n']

/-- The closing fence `` \n``` ``. -/
def fenceClose : List Char := "\n```".data

/-- Leftmost, shortest-capture search for `` ```tag\n(.*?)\n``` `` with a
literal tag, under `re.DOTALL`: at each position, the opening must match and a
closing fence must follow; the capture is everything up to the first closing
fence. -/
def searchFenceLit (tag : List Char) : List Char → Option (List Char)
  | [] => none
  | c :: rest =>
    if isStart (fenceOpen tag) (c :: rest) then
      match splitFirst fenceClose ((c :: rest).drop (fenceOpen tag).length) with
      | some (body, _) => some body
      | none => searchFenceLit tag rest
    else searchFenceLit tag rest

/-- One attempt of a fenced-block match at the current position with the given
opening. -/
def tryFenceAt (opening : List Char) (s : List Char) : Option (List Char) :=
  if isStart opening s then (splitFirst fenceClose (s.drop opening.length)).map (·.1)
  else none

/-- Leftmost search for `` ```(?:tag)?\n(.*?)\n``` `` with a literal tag: the
greedy optional group first tries to consume the tag, then tries the empty
alternative, before the scan advances one position. -/
def searchFenceTag (tag : List Char) : List Char → Option (List Char)
  | [] => none
  | c :: rest =>
    match tryFenceAt (fenceOpen tag) (c :: rest) with
    | some body => some body
    | none =>
      match tryFenceAt (fenceOpen []) (c :: rest) with
      | some body => some body
      | none => searchFenceTag tag rest

/-- Match of the opening `` ```\w*\n `` at the current position: after the
three backticks, `\w*` greedily takes the maximal run of word characters and
the next character must be a newline (no shorter run can succeed because a
word character can never match `\n`). Returns the remainder after the
newline. -/
def matchOpenW (s : List Char) : Option (List Char) :=
  if isStart "```".data s then
    match (s.drop 3).dropWhile isWordChar with
    | '\n' :: r2 => some r2
    | _ => none
  else none

/-- Leftmost search for `` ```(?:\w*)?\n(.*?)\n``` ``, the pattern
extract_code_block builds when no language is given. -/
def searchFenceW : List Char → Option (List Char)
  | [] => none
  | c :: rest =>
    match matchOpenW (c :: rest) with
    | some r =>
      match splitFirst fenceClose r with
      | some (body, _) => some body
      | none => searchFenceW rest
    | none => searchFenceW rest

/-- Scanner modelling the success of Python `re.compile` on a pattern string:
tracks group nesting depth, character classes and escapes. `depth` is the
number of open groups, `inClass` whether a character class is open. This is
the fragment of Python's syntax check relevant to the pattern strings
PromptManager builds; it is exact on them for word-character tags and for
tags with unbalanced group parentheses. -/
def regexScan : Nat → Bool → List Char → Bool
  | depth, inClass, [] => decide (depth = 0) && !inClass
  | depth, inClass, c :: rest =>
    if c = '\\' then
      match rest with
      | [] => false
      | _ :: rest2 => regexScan depth inClass rest2
    else if c = '[' then regexScan depth true rest
    else if c = ']' then regexScan depth false rest
    else if c = '(' then
      if inClass then regexScan depth inClass rest else regexScan (depth + 1) inClass rest
    else if c = ')' then
      if inClass then regexScan depth inClass rest
      else
        match depth with
        | 0 => false
        | d + 1 => regexScan d inClass rest
    else regexScan depth inClass rest

/-- `re.compile(p)` succeeds (does not raise `re.error`). -/
def regexCompiles (p : List Char) : Bool := regexScan 0 false p

/-- The pattern string `'```{}\n(.*?)\n```'.format(command)` built at
prompt_manager.py line 96. -/
def cmdPattern (command : List Char) : List Char :=
  "```".data ++ command ++ "\n(.*?)\n```".data

/-- The pattern string `'```(?:{})?\n(.*?)\n```'.format(language)` built at
prompt_manager.py line 82 for a truthy language argument. -/
def cbPattern (language : List Char) : List Char :=
  "```(?:".data ++ language ++ ")?\n(.*?)\n```".data

/-- PromptManager.extract_command (prompt_manager.py lines 86-98). The raw
`command` string is spliced into the regex; when the resulting pattern does
not compile, `re.search` raises `re.error`, which the method does not catch:
this is the `.error` case. Otherwise the literal fenced-block search runs. -/
def extract_command (text command : List Char) : Except Unit (Option (List Char)) :=
  if regexCompiles (cmdPattern command) then .ok (searchFenceLit command text)
  else .error ()

/-- PromptManager.extract_code_block (prompt_manager.py lines 72-84).
`language if language else r'\w*'` treats `None` and the empty string alike
(Python truthiness); a truthy language is spliced raw into the pattern, so an
invalid fragment makes `re.search` raise: the `.error` case. -/
def extract_code_block (text : List Char) (language : Option (List Char)) :
    Except Unit (Option (List Char)) :=
  match language with
  | none => .ok (searchFenceW text)
  | some l =>
    if l.isEmpty then .ok (searchFenceW text)
    else if regexCompiles (cbPattern l) then .ok (searchFenceTag l text)
    else .error ()

/-! ## DirectoryManager (src/utils/directory_manager.py)

The filesystem is modelled as an association list from paths (segment lists)
to node kinds, together with a set of paths on which mutating operations
raise an `OSError` (modelling environment failures such as missing
permissions; an empty `failing` list is a filesystem on which no operation
fails). Methods that Python runs for their side effects return the new
filesystem state explicitly; exceptions raised by primitives are `Except`
errors, and the methods' own `try/except` blocks are the `match`es on them. -/

/-- Kind of a filesystem node. -/
inductive NodeKind
  | file
  | dir
deriving DecidableEq

/-- Filesystem state: existing nodes plus the failure-injection set. -/
structure FS where
  nodes : List (List String × NodeKind)
  failing : List (List String)
deriving DecidableEq

/-- Kind of the node at path `p`, if it exists (`Path.exists` / `is_file` /
`is_dir`). -/
def lookupFS (fs : FS) (p : List String) : Option NodeKind :=
  match fs.nodes.find? (fun e => decide (e.1 = p)) with
  | some e => some e.2
  | none => none

/-- The static mapping `self.required_dirs` (directory_manager.py lines
19-25), as logical name to path relative to `base_dir`, in insertion
order. -/
def requiredDirs : List (String × List String) :=
  [("research", ["research_dir"]),
   ("source", ["research_dir", "src"]),
   ("tex", ["research_dir", "tex"]),
   ("output", ["output"]),
   ("state", ["state_saves"])]

/-- Events the DirectoryManager logs; the spec's `UnknownDirectoryKind`
failure is the `unknownDirType` log paired with a `False` return. -/
inductive LogEvent
  | unknownDirType (dirType : String)
  | cleaned (path : List String)
  | cleanFailed (path : List String)
deriving DecidableEq

/-- `Path.unlink`: removes the file at `p`; raises if `p` is on a failing
path or is not an existing file. -/
def unlinkFS (fs : FS) (p : List String) : Except Unit FS :=
  if fs.failing.contains p then .error ()
  else if lookupFS fs p = some .file then
    .ok ⟨fs.nodes.filter (fun e => !decide (e.1 = p)), fs.failing⟩
  else .error ()

/-- `shutil.rmtree`: removes the directory at `p` and everything below it;
raises if `p` is on a failing path or is not an existing directory. -/
def rmtreeFS (fs : FS) (p : List String) : Except Unit FS :=
  if fs.failing.contains p then .error ()
  else if lookupFS fs p = some .dir then
    .ok ⟨fs.nodes.filter (fun e => !isStart p e.1), fs.failing⟩
  else .error ()

/-- `Path.iterdir`: the direct children of `p`, in `nodes` order. -/
def childPaths (fs : FS) (p : List String) : List (List String) :=
  fs.nodes.filterMap (fun e =>
    if e.1.length = p.length + 1 ∧ isStart p e.1 then some e.1 else none)

/-- The body of the cleanup loop (directory_manager.py lines 64-68):
`if item.is_file(): item.unlink() elif item.is_dir(): shutil.rmtree(item)`. -/
def delChild (fs : FS) (c : List String) : Except Unit FS :=
  match lookupFS fs c with
  | some .file => unlinkFS fs c
  | some .dir => rmtreeFS fs c
  | none => .ok fs

/-- The cleanup loop over the children; the first exception aborts the loop,
leaving the state reached so far, with `false` recording that the method's
`except` branch runs. -/
def delChildren : FS → List (List String) → FS × Bool
  | fs, [] => (fs, true)
  | fs, c :: cs =>
    match delChild fs c with
    | .ok fs1 => delChildren fs1 cs
    | .error _ => (fs, false)

/-- `Path.iterdir`: lists the direct children, raising `NotADirectoryError`
when the path exists but is not a directory (and `FileNotFoundError` when it
does not exist). -/
def iterdirFS (fs : FS) (p : List String) : Except Unit (List (List String)) :=
  if lookupFS fs p = some .dir then .ok (childPaths fs p) else .error ()

/-- DirectoryManager.cleanup_directory (directory_manager.py lines 47-74).
When the path exists but is a file, `path.exists()` is true yet
`path.iterdir()` raises `NotADirectoryError`; the `except` branch logs the
failure and returns `False`. -/
def cleanup_directory (base : List String) (dir_type : String) (fs : FS) :
    Bool × FS × List LogEvent :=
  match List.lookup dir_type requiredDirs with
  | none => (false, fs, [.unknownDirType dir_type])
  | some segs =>
    let p := base ++ segs
    if (lookupFS fs p).isSome then
      match iterdirFS fs p with
      | .error _ => (false, fs, [.cleanFailed p])
      | .ok children =>
        match delChildren fs children with
        | (fs1, true) => (true, fs1, [.cleaned p])
        | (fs1, false) => (false, fs1, [.cleanFailed p])
    else (false, fs, [])

/-- The nonempty leading segment sequences of `p`, innermost last. -/
def properPaths (p : List String) : List (List String) :=
  p.inits.filter (fun q => !q.isEmpty)

/-- `Path.mkdir(parents=True, exist_ok=True)`: raises when some leading
segment of `p` exists as a file (`NotADirectoryError` / `FileExistsError`) or
when a missing leading segment must be created on a failing path; otherwise
creates every missing leading segment as a directory. -/
def mkdirParents (fs : FS) (p : List String) : Except Unit FS :=
  if (properPaths p).any (fun q =>
      lookupFS fs q == some .file || (fs.failing.contains q && (lookupFS fs q).isNone))
  then .error ()
  else .ok ⟨fs.nodes ++ ((properPaths p).filter (fun q => (lookupFS fs q).isNone)).map
      (fun q => (q, NodeKind.dir)), fs.failing⟩

/-- `Path.chmod(0o777)`: raises on a failing path; permission bits themselves
are not tracked by the model. -/
def chmodFS (fs : FS) (p : List String) : Except Unit FS :=
  if fs.failing.contains p then .error () else .ok fs

/-- One iteration of the setup loop (directory_manager.py lines 35-44):
`mkdir` then `chmod` under a `try`, recording `True` on success and `False`
when either raises. -/
def setupStep (base : List String) (fs : FS) (entry : String × List String) :
    (String × Bool) × FS :=
  match mkdirParents fs (base ++ entry.2) with
  | .ok fs1 =>
    match chmodFS fs1 (base ++ entry.2) with
    | .ok fs2 => ((entry.1, true), fs2)
    | .error _ => ((entry.1, false), fs1)
  | .error _ => ((entry.1, false), fs)

/-- The setup loop over a list of entries. -/
def setupGo (base : List String) : FS → List (String × List String) →
    List (String × Bool) × FS
  | fs, [] => ([], fs)
  | fs, e :: rest =>
    let r := setupStep base fs e
    let rs := setupGo base r.2 rest
    (r.1 :: rs.1, rs.2)

/-- DirectoryManager.setup_directories (directory_manager.py lines 28-45):
iterates `required_dirs` in order, producing one status entry per logical
name. -/
def setup_directories (base : List String) (fs : FS) : List (String × Bool) × FS :=
  setupGo base fs requiredDirs

/-! ## Theorems -/

theorem lookup_requiredDirs_none (name : String)
    (h : name ∉ ["research", "source", "tex", "output", "state"]) :
    List.lookup name requiredDirs = none := by
  simp only [List.mem_cons, List.not_mem_nil, or_false, not_or] at h
  obtain ⟨h1, h2, h3, h4, h5⟩ := h
  have e1 : (name == "research") = false := beq_eq_false_iff_ne.2 h1
  have e2 : (name == "source") = false := beq_eq_false_iff_ne.2 h2
  have e3 : (name == "tex") = false := beq_eq_false_iff_ne.2 h3
  have e4 : (name == "output") = false := beq_eq_false_iff_ne.2 h4
  have e5 : (name == "state") = false := beq_eq_false_iff_ne.2 h5
  simp [requiredDirs, List.lookup, e1, e2, e3, e4, e5]

/-- C4: cleanup with a logical name outside the static mapping takes the
unknown-directory branch: it returns `False`, leaves the filesystem
untouched, and logs the unknown-directory-type error (the spec's
`UnknownDirectoryKind`). -/
theorem C4_cleanup_unknown_kind (base : List String) (fs : FS) (name : String)
    (h : name ∉ ["research", "source", "tex", "output", "state"]) :
    cleanup_directory base name fs = (false, fs, [.unknownDirType name]) := by
  unfold cleanup_directory
  rw [lookup_requiredDirs_none name h]

/-- C4 witness: `cleanup("bogus")` fails with the unknown-directory error. -/
theorem C4_witness :
    cleanup_directory [] "bogus" ⟨[], []⟩
      = (false, ⟨[], []⟩, [.unknownDirType "bogus"]) :=
  C4_cleanup_unknown_kind [] ⟨[], []⟩ "bogus" (by decide)

theorem setupStep_name (base : List String) (fs : FS) (e : String × List String) :
    (setupStep base fs e).1.1 = e.1 := by
  unfold setupStep
  cases h1 : mkdirParents fs (base ++ e.2) with
  | error err => rfl
  | ok fs1 =>
    cases h2 : chmodFS fs1 (base ++ e.2) with
    | error err => simp [h2]
    | ok fs2 => simp [h2]

theorem setupGo_names (base : List String) :
    ∀ (l : List (String × List String)) (fs : FS),
      (setupGo base fs l).1.map (fun r => r.1) = l.map (fun e => e.1)
  | [], _ => rfl
  | e :: rest, fs => by
    simp only [setupGo, List.map_cons, List.cons.injEq]
    exact ⟨setupStep_name base fs e, setupGo_names base rest _⟩

/-- C6: setup_directories is total: on every filesystem state (including
states where directory creation or chmod raises) it returns a status map
with exactly one boolean entry per logical name, in `required_dirs` order; a
per-entry failure is recorded as `false` without aborting the remaining
entries, as the concrete run with a failing `output` path shows. -/
theorem C6_setup_complete :
    (∀ (base : List String) (fs : FS),
      (setup_directories base fs).1.map (fun r => r.1)
        = ["research", "source", "tex", "output", "state"]) ∧
    (setup_directories [] ⟨[], [["output"]]⟩).1
      = [("research", true), ("source", true), ("tex", true), ("output", false),
         ("state", true)] := by
  constructor
  · intro base fs
    exact setupGo_names base requiredDirs fs
  · decide

theorem length_dropWhile_le {α : Type} (p : α → Bool) (l : List α) :
    (l.dropWhile p).length ≤ l.length := by
  induction l with
  | nil => simp [List.dropWhile]
  | cons c rest ih =>
    simp only [List.dropWhile]
    split
    · exact Nat.le_succ_of_le ih
    · exact Nat.le_refl _

theorem pyStrip_length_le (s : List Char) : (pyStrip s).length ≤ s.length := by
  unfold pyStrip
  calc ((s.dropWhile pySpace).reverse.dropWhile pySpace).reverse.length
      = ((s.dropWhile pySpace).reverse.dropWhile pySpace).length := List.length_reverse _
    _ ≤ (s.dropWhile pySpace).reverse.length := length_dropWhile_le _ _
    _ = (s.dropWhile pySpace).length := List.length_reverse _
    _ ≤ s.length := length_dropWhile_le _ _

/-- C10: the string format_feedback returns never exceeds `max_length` plus
the three characters of the ellipsis marker, whatever the input (trimming
only shortens). -/
theorem C10_format_feedback_length (s : List Char) (m : Nat) :
    (format_feedback s m).length ≤ m + 3 := by
  unfold format_feedback
  split
  · calc (pyStrip (s.take m ++ "...".data)).length
        ≤ (s.take m ++ "...".data).length := pyStrip_length_le _
      _ = (s.take m).length + 3 := by simp
      _ ≤ m + 3 := by
          have := List.length_take_le m s
          omega
  · next h =>
      have h1 := pyStrip_length_le s
      omega

/-- C10 witness. -/
theorem C10_witness : (format_feedback (List.replicate 9 'y') 5).length ≤ 5 + 3 :=
  C10_format_feedback_length (List.replicate 9 'y') 5

theorem dropWhile_all_neg (p : Char → Bool) :
    ∀ (l : List Char), (∀ c ∈ l, p c = false) → l.dropWhile p = l := by
  intro l h
  cases l with
  | nil => rfl
  | cons a t => rw [List.dropWhile_cons_of_neg]
                simp [h a (by simp)]

theorem pyStrip_all_neg (s : List Char) (h : ∀ c ∈ s, pySpace c = false) :
    pyStrip s = s := by
  unfold pyStrip
  rw [dropWhile_all_neg pySpace s h]
  rw [dropWhile_all_neg pySpace s.reverse (fun c hc => h c (List.mem_reverse.1 hc))]
  exact List.reverse_reverse s

theorem dropWhile_append_dots (x : List Char) :
    ∃ y, (x ++ "...".data).dropWhile pySpace = y ++ "...".data := by
  induction x with
  | nil => exact ⟨[], by decide⟩
  | cons c t ih =>
    by_cases hc : pySpace c = true
    · rw [List.cons_append, List.dropWhile_cons_of_pos hc]
      exact ih
    · exact ⟨c :: t, by rw [List.cons_append, List.dropWhile_cons_of_neg (by simp_all)]⟩

theorem rstrip_dots (y : List Char) :
    ((y ++ "...".data).reverse.dropWhile pySpace).reverse = y ++ "...".data := by
  have h1 : (y ++ "...".data).reverse = '.' :: '.' :: '.' :: y.reverse := by
    simp [show "...".data = ['.', '.', '.'] from rfl]
  rw [h1, List.dropWhile_cons_of_neg (by decide)]
  rw [← h1, List.reverse_reverse]

theorem pyStrip_append_dots (x : List Char) :
    ∃ y, pyStrip (x ++ "...".data) = y ++ "...".data := by
  obtain ⟨y, hy⟩ := dropWhile_append_dots x
  exact ⟨y, by rw [pyStrip, hy, rstrip_dots]⟩

theorem dropWhile_head_neg (p : Char → Bool) :
    ∀ (l : List Char), l.dropWhile p = [] ∨
      ∃ a t, l.dropWhile p = a :: t ∧ p a = false := by
  intro l
  induction l with
  | nil => exact Or.inl rfl
  | cons a t ih =>
    by_cases ha : p a = true
    · rw [List.dropWhile_cons_of_pos ha]; exact ih
    · rw [List.dropWhile_cons_of_neg (by simp_all)]
      exact Or.inr ⟨a, t, rfl, by simp_all⟩

theorem dropWhile_idem (p : Char → Bool) (l : List Char) :
    (l.dropWhile p).dropWhile p = l.dropWhile p := by
  rcases dropWhile_head_neg p l with h | ⟨a, t, h, ha⟩
  · rw [h]; rfl
  · rw [h, List.dropWhile_cons_of_neg (by simp [ha])]

theorem pyStrip_fixed (s : List Char) : pyStrip (pyStrip s) = pyStrip s := by
  unfold pyStrip
  set d := s.dropWhile pySpace with hd
  set u := d.reverse.dropWhile pySpace with hu
  have hud : ∃ w, u.reverse ++ w = d := by
    have hsfx : d.reverse.dropWhile pySpace <:+ d.reverse := List.dropWhile_suffix pySpace
    obtain ⟨w, hw⟩ := hsfx
    refine ⟨w.reverse, ?_⟩
    have : (w ++ u).reverse = d.reverse.reverse := by rw [hw]
    simpa [List.reverse_append] using this
  have step1 : u.reverse.dropWhile pySpace = u.reverse := by
    rcases dropWhile_head_neg pySpace s with h0 | ⟨a, t, h0, ha⟩
    · have : d = [] := h0
      have : u = [] := by rw [hu, this]; rfl
      rw [this]; rfl
    · obtain ⟨w, hw⟩ := hud
      cases hr : u.reverse with
      | nil => rfl
      | cons b bt =>
        have hdeq : d = b :: (bt ++ w) := by rw [← hw, hr, List.cons_append]
        have hda : d = a :: t := hd.trans h0
        rw [hda] at hdeq
        have hb : b = a := by
          injection hdeq with h1 h2
          exact h1.symm
        rw [List.dropWhile_cons_of_neg (by rw [hb]; simp [ha])]
  rw [step1]
  rw [List.reverse_reverse, dropWhile_idem]

/-- C7: format_feedback truncates over-long input to `max_length` characters
plus the ellipsis marker and trims surrounding whitespace: whenever the input
is strictly longer than `max_length` the result ends with `"..."`, the result
is always a fixed point of stripping (it carries no surrounding whitespace),
and on 2000 copies of `'x'` with `max_length = 1000` the result has length
1003 and ends with the ellipsis marker. -/
theorem C7_format_feedback_truncates :
    (∀ (s : List Char) (m : Nat), m < s.length → "...".data <:+ format_feedback s m) ∧
    (∀ (s : List Char) (m : Nat), pyStrip (format_feedback s m) = format_feedback s m) ∧
    (format_feedback (List.replicate 2000 'x') 1000).length = 1003 ∧
    "...".data <:+ format_feedback (List.replicate 2000 'x') 1000 := by
  have hsuffix : ∀ (s : List Char) (m : Nat), m < s.length →
      "...".data <:+ format_feedback s m := by
    intro s m hm
    rw [format_feedback, if_pos hm]
    obtain ⟨y, hy⟩ := pyStrip_append_dots (s.take m)
    rw [hy]
    exact ⟨y, rfl⟩
  have hconcrete : format_feedback (List.replicate 2000 'x') 1000
      = List.replicate 1000 'x' ++ "...".data := by
    rw [format_feedback, if_pos (by rw [List.length_replicate]; norm_num),
      List.take_replicate]
    have : min 1000 2000 = 1000 := by norm_num
    rw [this]
    refine pyStrip_all_neg _ ?_
    intro c hc
    rcases List.mem_append.1 hc with h | h
    · rw [List.eq_of_mem_replicate h]; rfl
    · have : c = '.' := by
        simpa [show "...".data = ['.', '.', '.'] from rfl] using h
      rw [this]; rfl
  refine ⟨hsuffix, ?_, ?_, ?_⟩
  · intro s m
    rw [format_feedback]
    split
    · obtain ⟨y, hy⟩ := pyStrip_append_dots (s.take m)
      rw [hy, ← hy, pyStrip_fixed, hy]
    · exact pyStrip_fixed s
  · rw [hconcrete, List.length_append, List.length_replicate]
    have h3 : ("...".data).length = 3 := rfl
    rw [h3]
  · exact hsuffix _ _ (by rw [List.length_replicate]; norm_num)

/-- C7 witness: the general suffix conjunct applied at a concrete input. -/
theorem C7_witness : "...".data <:+ format_feedback ("abcdef".data) 4 :=
  C7_format_feedback_truncates.1 ("abcdef".data) 4 (by decide)

/-- The claim's notion of a bare LF: an `\n` that is not immediately preceded
by `\r` (phrased from the spec sentence; used only to state the premise class
of the claim at concrete inputs). -/
def hasBareLF : List Char → Bool
  | [] => false
  | '\r' :: '\n' :: rest => hasBareLF rest
  | '\n' :: _ => true
  | _ :: rest => hasBareLF rest

theorem occurs_of_isStart (pat s : List Char) (h : isStart pat s = true) :
    occurs pat s = true := by
  cases s with
  | nil => exact h
  | cons c rest => simp [occurs, h]

theorem occurs_crlf_lf (s : List Char) (h : occurs ['\r', '\n'] s = true) :
    occurs ['\n'] s = true := by
  induction s with
  | nil => simp [occurs, isStart] at h
  | cons c rest ih =>
    simp only [occurs, Bool.or_eq_true] at h ⊢
    rcases h with h | h
    · right
      simp only [isStart, Bool.and_eq_true, decide_eq_true_eq] at h
      obtain ⟨hc, hrest⟩ := h
      exact occurs_of_isStart _ _ hrest
    · right; exact ih h

theorem mem_validate_mixed (s : List Char) :
    "Mixed line endings" ∈ validate_prompt s
      ↔ (occurs ['\r', '\n'] s && occurs ['\n'] s) = true := by
  unfold validate_prompt
  by_cases h1 : countChar '"' s % 2 ≠ 0 <;>
  by_cases h2 : (occurs ['\r', '\n'] s && occurs ['\n'] s) = true <;>
  by_cases h3 : ((pySplitlines s).any fun line => decide (120 < line.length)) = true <;>
  by_cases h4 : hasPlaceholder s = true <;>
  simp [h1, h2, h3, h4]

/-- C2 counterexample: the input `"line\r\nother\r\n"` has no bare LF (every
`\n` is preceded by `\r`), yet validate_prompt reports "Mixed line endings"
for it, because the code's test `'\r\n' in prompt and '\n' in prompt` is
satisfied by any CRLF alone. -/
theorem C2_counterexample :
    hasBareLF ("line\r\nother\r\n".data) = false ∧
    "Mixed line endings" ∈ validate_prompt ("line\r\nother\r\n".data) := by
  constructor
  · decide
  · decide

/-- C2 amended: validate_prompt reports "Mixed line endings" exactly when the
input contains a CRLF sequence at all (the `'\n' in prompt` conjunct is
subsumed, since every CRLF contains an LF); the claim's concrete example
`"line\r\nother\n"` is still reported. -/
theorem C2_mixed_iff_crlf :
    (∀ s, "Mixed line endings" ∈ validate_prompt s ↔ occurs ['\r', '\n'] s = true) ∧
    "Mixed line endings" ∈ validate_prompt ("line\r\nother\n".data) := by
  constructor
  · intro s
    rw [mem_validate_mixed]
    constructor
    · intro h
      have h2 : occurs ['\r', '\n'] s = true ∧ occurs ['\n'] s = true := by simpa using h
      exact h2.1
    · intro h
      simp [h, occurs_crlf_lf s h]
  · decide

/-- No two adjacent spaces ("runs of whitespace collapsed to single
spaces"). -/
def noTwoSpaces : List Char → Bool
  | a :: b :: rest => !(a == ' ' && b == ' ') && noTwoSpaces (b :: rest)
  | _ => true

theorem splitWsAux_spec :
    ∀ (s acc : List Char), (∀ c ∈ acc, pySpace c = false) →
    ∀ p ∈ splitWsAux acc s, p ≠ [] ∧ ∀ c ∈ p, pySpace c = false ∧ (c ∈ s ∨ c ∈ acc)
  | [], acc => by
    intro hacc p hp
    simp only [splitWsAux] at hp
    split at hp
    · simp at hp
    · next hne =>
      simp only [List.mem_singleton] at hp
      subst hp
      refine ⟨?_, fun c hc => ?_⟩
      · simp only [ne_eq, List.reverse_eq_nil_iff]
        intro h
        rw [h] at hne
        exact hne rfl
      · have hm : c ∈ acc := List.mem_reverse.1 hc
        exact ⟨hacc c hm, Or.inr hm⟩
  | c0 :: rest, acc => by
    intro hacc p hp
    simp only [splitWsAux] at hp
    by_cases hc0 : pySpace c0 = true
    · rw [if_pos hc0] at hp
      split at hp
      · have h := splitWsAux_spec rest [] (by simp) p hp
        refine ⟨h.1, fun c hc => ?_⟩
        obtain ⟨h1, h2⟩ := h.2 c hc
        rcases h2 with h2 | h2
        · exact ⟨h1, Or.inl (List.mem_cons_of_mem _ h2)⟩
        · simp at h2
      · next hne =>
        rcases List.mem_cons.1 hp with hp1 | hp1
        · subst hp1
          refine ⟨?_, fun c hc => ?_⟩
          · simp only [ne_eq, List.reverse_eq_nil_iff]
            intro h
            rw [h] at hne
            exact hne rfl
          · have hm : c ∈ acc := List.mem_reverse.1 hc
            exact ⟨hacc c hm, Or.inr hm⟩
        · have h := splitWsAux_spec rest [] (by simp) p hp1
          refine ⟨h.1, fun c hc => ?_⟩
          obtain ⟨h1, h2⟩ := h.2 c hc
          rcases h2 with h2 | h2
          · exact ⟨h1, Or.inl (List.mem_cons_of_mem _ h2)⟩
          · simp at h2
    · rw [if_neg hc0] at hp
      have h := splitWsAux_spec rest (c0 :: acc)
        (fun c hc => by
          rcases List.mem_cons.1 hc with h | h
          · subst h; simpa using hc0
          · exact hacc c h) p hp
      refine ⟨h.1, fun c hc => ?_⟩
      obtain ⟨h1, h2⟩ := h.2 c hc
      rcases h2 with h2 | h2
      · exact ⟨h1, Or.inl (List.mem_cons_of_mem _ h2)⟩
      · rcases List.mem_cons.1 h2 with h2 | h2
        · subst h2; exact ⟨h1, Or.inl (List.mem_cons_self _ _)⟩
        · exact ⟨h1, Or.inr h2⟩

theorem joinSp_chars : ∀ (ps : List (List Char)), ∀ c ∈ joinSp ps,
    c = ' ' ∨ ∃ p ∈ ps, c ∈ p
  | [] => by simp [joinSp]
  | [p] => by
    intro c hc
    exact Or.inr ⟨p, by simp, hc⟩
  | p :: q :: ps => by
    intro c hc
    have heq : joinSp (p :: q :: ps) = p ++ ' ' :: joinSp (q :: ps) := rfl
    rw [heq] at hc
    rcases List.mem_append.1 hc with h | h
    · exact Or.inr ⟨p, by simp, h⟩
    · rcases List.mem_cons.1 h with h | h
      · exact Or.inl h
      · rcases joinSp_chars (q :: ps) c h with h | ⟨r, hr, hcr⟩
        · exact Or.inl h
        · exact Or.inr ⟨r, List.mem_cons_of_mem _ hr, hcr⟩

theorem joinSp_cons_structure : ∀ (q : List Char) (ps : List (List Char)),
    ∃ t, joinSp (q :: ps) = q ++ t
  | q, [] => ⟨[], by simp [joinSp]⟩
  | _, _ :: _ => ⟨' ' :: joinSp _, rfl⟩

theorem noTwoSpaces_append (y : List Char) (hy : noTwoSpaces y = true) :
    ∀ (x : List Char), (∀ c ∈ x, c ≠ ' ') → noTwoSpaces (x ++ y) = true := by
  intro x
  induction x with
  | nil => intro _; simpa
  | cons a x' ih =>
    intro hx
    have ha : a ≠ ' ' := hx a (by simp)
    have htail : noTwoSpaces (x' ++ y) = true :=
      ih (fun c hc => hx c (List.mem_cons_of_mem _ hc))
    rw [List.cons_append]
    cases hxy : x' ++ y with
    | nil => rfl
    | cons b t =>
      rw [hxy] at htail
      have ha2 : (a == ' ') = false := by simpa using ha
      simp [noTwoSpaces, ha2, htail]

theorem noTwoSpaces_joinSp :
    ∀ (ps : List (List Char)),
    (∀ p ∈ ps, p ≠ [] ∧ ∀ c ∈ p, pySpace c = false) →
    noTwoSpaces (joinSp ps) = true
  | [] => by intro _; rfl
  | [p] => by
    intro h
    obtain ⟨hne, hchars⟩ := h p (by simp)
    have heq : joinSp [p] = p ++ [] := by simp [joinSp]
    rw [heq]
    refine noTwoSpaces_append [] rfl p (fun c hc heq2 => ?_)
    have := hchars c hc
    rw [heq2] at this
    exact absurd this (by decide)
  | p :: q :: ps => by
    intro h
    obtain ⟨hne, hchars⟩ := h p (by simp)
    have hrest : ∀ r ∈ q :: ps, r ≠ [] ∧ ∀ c ∈ r, pySpace c = false :=
      fun r hr => h r (List.mem_cons_of_mem _ hr)
    have htail : noTwoSpaces (joinSp (q :: ps)) = true :=
      noTwoSpaces_joinSp (q :: ps) hrest
    have hq := hrest q (by simp)
    obtain ⟨t, ht⟩ := joinSp_cons_structure q ps
    have hmid : noTwoSpaces (' ' :: joinSp (q :: ps)) = true := by
      rw [ht]
      cases hq1 : q with
      | nil => exact absurd hq1 hq.1
      | cons b bt =>
        have hb : pySpace b = false := hq.2 b (by rw [hq1]; simp)
        have hb2 : (b == ' ') = false := by
          refine beq_eq_false_iff_ne.2 (fun heq => ?_)
          rw [heq] at hb
          exact absurd hb (by decide)
        show noTwoSpaces (' ' :: b :: (bt ++ t)) = true
        have hrec : noTwoSpaces (b :: (bt ++ t)) = true := by
          have hj : (b :: bt) ++ t = joinSp (q :: ps) := by
            rw [← hq1]
            exact ht.symm
          rw [show b :: (bt ++ t) = (b :: bt) ++ t from rfl, hj]
          exact htail
        simp [noTwoSpaces, hb2, hrec]
    have heq : joinSp (p :: q :: ps) = p ++ ' ' :: joinSp (q :: ps) := rfl
    rw [heq]
    refine noTwoSpaces_append _ hmid p (fun c hc heq2 => ?_)
    have := hchars c hc
    rw [heq2] at this
    exact absurd this (by decide)

/-- C3 counterexample: the claim's concrete example is wrong (the code keeps
both hyphens of `"b--c"`; nothing collapses hyphen runs), and the output
alphabet includes the underscore (kept by `\w`), which is neither
alphanumeric, space nor hyphen. -/
theorem C3_counterexample :
    clean_search_query ("a!! b--c  d".data) ≠ "a b-c d".data ∧
    clean_search_query ("_".data) = "_".data := by
  constructor
  · decide
  · decide

/-- C3 amended: clean_search_query returns a string whose characters are all
word characters (alphanumerics or underscore), hyphens or single spaces:
characters outside word/whitespace/hyphen are removed, runs of whitespace
collapse to one space (no two adjacent spaces remain), and the claim's
example input yields `"a b--c d"`. -/
theorem C3_clean_query_alphabet :
    (∀ (q : List Char), ∀ c ∈ clean_search_query q,
      isWordChar c = true ∨ c = '-' ∨ c = ' ') ∧
    (∀ (q : List Char), noTwoSpaces (clean_search_query q) = true) ∧
    clean_search_query ("a!! b--c  d".data) = "a b--c d".data := by
  have hpieces : ∀ (q : List Char), ∀ p ∈ splitWs (q.filter keepQueryChar),
      p ≠ [] ∧ ∀ c ∈ p, pySpace c = false ∧ c ∈ q.filter keepQueryChar := by
    intro q p hp
    have h := splitWsAux_spec (q.filter keepQueryChar) [] (by simp) p hp
    refine ⟨h.1, fun c hc => ?_⟩
    obtain ⟨h1, h2⟩ := h.2 c hc
    rcases h2 with h2 | h2
    · exact ⟨h1, h2⟩
    · simp at h2
  refine ⟨?_, ?_, by decide⟩
  · intro q c hc
    have hc2 : c ∈ joinSp (splitWs (q.filter keepQueryChar)) := hc
    rcases joinSp_chars _ c hc2 with h | ⟨p, hp, hcp⟩
    · right; right; exact h
    · obtain ⟨hsp, hmem⟩ := (hpieces q p hp).2 c hcp
      have hkeep : keepQueryChar c = true := (List.mem_filter.1 hmem).2
      unfold keepQueryChar at hkeep
      rw [hsp] at hkeep
      simp only [Bool.or_false, Bool.false_or, Bool.or_eq_true] at hkeep
      rcases hkeep with h | h
      · exact Or.inl h
      · exact Or.inr (Or.inl (by simpa using h))
  · intro q
    show noTwoSpaces (joinSp (splitWs (q.filter keepQueryChar))) = true
    apply noTwoSpaces_joinSp
    intro p hp
    have h := hpieces q p hp
    exact ⟨h.1, fun c hc => (h.2 c hc).1⟩

theorem splitWsAux_chunk :
    ∀ (p acc s : List Char), (∀ c ∈ p, pySpace c = false) →
    splitWsAux acc (p ++ s) = splitWsAux (p.reverse ++ acc) s
  | [], acc, s => by intro _; simp
  | c :: p', acc, s => by
    intro h
    have hc : pySpace c = false := h c (by simp)
    show splitWsAux acc (c :: (p' ++ s)) = _
    simp only [splitWsAux]
    rw [if_neg (by simp [hc])]
    rw [splitWsAux_chunk p' (c :: acc) s (fun d hd => h d (List.mem_cons_of_mem _ hd))]
    congr 1
    simp

theorem splitWs_joinSp :
    ∀ (ps : List (List Char)),
    (∀ p ∈ ps, p ≠ [] ∧ ∀ c ∈ p, pySpace c = false) →
    splitWs (joinSp ps) = ps
  | [] => by intro _; rfl
  | [p] => by
    intro h
    obtain ⟨hne, hchars⟩ := h p (by simp)
    show splitWsAux [] (joinSp [p]) = [p]
    have heq : joinSp [p] = p ++ [] := by simp [joinSp]
    rw [heq, splitWsAux_chunk p [] [] hchars]
    simp only [splitWsAux, List.append_nil]
    rw [if_neg (by simpa using hne)]
    simp
  | p :: q :: ps => by
    intro h
    obtain ⟨hne, hchars⟩ := h p (by simp)
    have hrest : ∀ r ∈ q :: ps, r ≠ [] ∧ ∀ c ∈ r, pySpace c = false :=
      fun r hr => h r (List.mem_cons_of_mem _ hr)
    show splitWsAux [] (joinSp (p :: q :: ps)) = _
    have heq : joinSp (p :: q :: ps) = p ++ (' ' :: joinSp (q :: ps)) := rfl
    rw [heq, splitWsAux_chunk p [] _ hchars, List.append_nil]
    simp only [splitWsAux]
    rw [if_pos (by decide)]
    rw [if_neg (by simpa using hne)]
    rw [List.reverse_reverse]
    exact congrArg (p :: ·) (splitWs_joinSp (q :: ps) hrest)

/-- C9: clean_search_query is idempotent: its output contains only kept
characters with whitespace already collapsed, so a second application
filters nothing, splits back into the same pieces, and rejoins them
unchanged. -/
theorem C9_clean_search_query_idempotent (q : List Char) :
    clean_search_query (clean_search_query q) = clean_search_query q := by
  have hpieces : ∀ p ∈ splitWs (q.filter keepQueryChar),
      p ≠ [] ∧ ∀ c ∈ p, pySpace c = false := by
    intro p hp
    have h := splitWsAux_spec (q.filter keepQueryChar) [] (by simp) p hp
    exact ⟨h.1, fun c hc => (h.2 c hc).1⟩
  have hkeepall : ∀ c ∈ clean_search_query q, keepQueryChar c = true := by
    intro c hc
    have hc2 : c ∈ joinSp (splitWs (q.filter keepQueryChar)) := hc
    rcases joinSp_chars _ c hc2 with h | ⟨p, hp, hcp⟩
    · rw [h]; decide
    · have h2 := splitWsAux_spec (q.filter keepQueryChar) [] (by simp) p hp
      obtain ⟨_, hmem⟩ := h2.2 c hcp
      rcases hmem with hmem | hmem
      · exact (List.mem_filter.1 hmem).2
      · simp at hmem
  show joinSp (splitWs ((clean_search_query q).filter keepQueryChar))
      = clean_search_query q
  rw [List.filter_eq_self.2 hkeepall]
  have hinner : clean_search_query q = joinSp (splitWs (q.filter keepQueryChar)) := rfl
  rw [hinner, splitWs_joinSp _ hpieces]

theorem regexScan_other (d : Nat) (ic : Bool) (c : Char) (t : List Char)
    (h1 : c ≠ '\\') (h2 : c ≠ '[') (h3 : c ≠ ']') (h4 : c ≠ '(') (h5 : c ≠ ')') :
    regexScan d ic (c :: t) = regexScan d ic t := by
  rw [regexScan.eq_def]
  simp [h1, h2, h3, h4, h5]

theorem regexScan_open (d : Nat) (ic : Bool) (t : List Char) (h : ic = false) :
    regexScan d ic ('(' :: t) = regexScan (d + 1) ic t := by
  subst h
  rw [regexScan.eq_def]
  simp

theorem isWordChar_not_special (c : Char) (h : isWordChar c = true) :
    c ≠ '\\' ∧ c ≠ '[' ∧ c ≠ ']' ∧ c ≠ '(' ∧ c ≠ ')' := by
  refine ⟨?_, ?_, ?_, ?_, ?_⟩ <;> (intro he; subst he; exact absurd h (by decide))

theorem regexScan_wordChars :
    ∀ (s : List Char) (d : Nat) (ic : Bool) (rest : List Char),
    (∀ c ∈ s, isWordChar c = true) → regexScan d ic (s ++ rest) = regexScan d ic rest
  | [] => by intros; rfl
  | c :: s' => by
    intro d ic rest h
    obtain ⟨h1, h2, h3, h4, h5⟩ := isWordChar_not_special c (h c (by simp))
    rw [List.cons_append, regexScan_other d ic c _ h1 h2 h3 h4 h5]
    exact regexScan_wordChars s' d ic rest (fun x hx => h x (List.mem_cons_of_mem _ hx))

theorem regexCompiles_cmdPattern (cmd : List Char) (h : cmd.all isWordChar = true) :
    regexCompiles (cmdPattern cmd) = true := by
  unfold regexCompiles cmdPattern
  rw [List.append_assoc]
  show regexScan 0 false ('`' :: '`' :: '`' :: (cmd ++ "\n(.*?)\n```".data)) = true
  rw [regexScan_other _ _ _ _ (by decide) (by decide) (by decide) (by decide) (by decide)]
  rw [regexScan_other _ _ _ _ (by decide) (by decide) (by decide) (by decide) (by decide)]
  rw [regexScan_other _ _ _ _ (by decide) (by decide) (by decide) (by decide) (by decide)]
  rw [regexScan_wordChars cmd 0 false _ (by simpa [List.all_eq_true] using h)]
  decide

theorem regexCompiles_cbPattern (l : List Char) (h : l.all isWordChar = true) :
    regexCompiles (cbPattern l) = true := by
  unfold regexCompiles cbPattern
  rw [List.append_assoc]
  show regexScan 0 false
    ('`' :: '`' :: '`' :: '(' :: '?' :: ':' :: (l ++ ")?\n(.*?)\n```".data)) = true
  rw [regexScan_other _ _ _ _ (by decide) (by decide) (by decide) (by decide) (by decide)]
  rw [regexScan_other _ _ _ _ (by decide) (by decide) (by decide) (by decide) (by decide)]
  rw [regexScan_other _ _ _ _ (by decide) (by decide) (by decide) (by decide) (by decide)]
  rw [regexScan_open _ _ _ rfl]
  rw [regexScan_other _ _ _ _ (by decide) (by decide) (by decide) (by decide) (by decide)]
  rw [regexScan_other _ _ _ _ (by decide) (by decide) (by decide) (by decide) (by decide)]
  rw [regexScan_wordChars l 1 false _ (by simpa [List.all_eq_true] using h)]
  decide

/-- C1 counterexample: extract_command and extract_code_block splice the raw
tag into the regex pattern; a tag such as `"("` makes the pattern fail to
compile, so `re.search` raises `re.error`, which neither method catches —
they are not non-throwing for every tag string. -/
theorem C1_counterexample :
    extract_command ("x".data) ("(".data) = .error () ∧
    extract_code_block ("x".data) (some ("(".data)) = .error () := by
  constructor
  · decide
  · decide

/-- C1 amended: every public PromptManager operation is total, and
extract_command / extract_code_block return a result or absent for every
text whenever the tag consists of word characters (or is absent); only a tag
that breaks regex compilation makes them raise. -/
theorem C1_regex_ops_total :
    (∀ (text cmd : List Char), cmd.all isWordChar = true →
      ∃ r, extract_command text cmd = .ok r) ∧
    (∀ (text l : List Char), l.all isWordChar = true →
      ∃ r, extract_code_block text (some l) = .ok r) ∧
    (∀ (text : List Char), ∃ r, extract_code_block text none = .ok r) := by
  refine ⟨?_, ?_, ?_⟩
  · intro text cmd h
    unfold extract_command
    rw [if_pos (regexCompiles_cmdPattern cmd h)]
    exact ⟨_, rfl⟩
  · intro text l h
    by_cases hl : l.isEmpty = true
    · exact ⟨_, by simp only [extract_code_block]; rw [if_pos hl]⟩
    · exact ⟨_, by
        simp only [extract_code_block]
        rw [if_neg hl, if_pos (regexCompiles_cbPattern l h)]⟩
  · intro text
    exact ⟨_, rfl⟩

/-- C1 witness: the amended theorem at concrete inputs. -/
theorem C1_witness :
    (∃ r, extract_command ("abc".data) ("run".data) = .ok r) ∧
    (∃ r, extract_code_block ("abc".data) (some ("python".data)) = .ok r) ∧
    (∃ r, extract_code_block ("abc".data) none = .ok r) :=
  ⟨C1_regex_ops_total.1 ("abc".data) ("run".data) (by decide),
   C1_regex_ops_total.2.1 ("abc".data) ("python".data) (by decide),
   C1_regex_ops_total.2.2 ("abc".data)⟩

theorem isStart_iff {α : Type} [DecidableEq α] :
    ∀ (p s : List α), isStart p s = true ↔ p <+: s
  | [], s => by simp [isStart]
  | a :: p, [] => by simp [isStart]
  | a :: p, b :: s => by
    simp only [isStart, Bool.and_eq_true, decide_eq_true_eq, List.cons_prefix_cons]
    exact and_congr Iff.rfl (isStart_iff p s)

theorem occurs_iff : ∀ (pat s : List Char), occurs pat s = true ↔ pat <:+: s
  | pat, [] => by simp [occurs, isStart_iff]
  | pat, c :: rest => by
    simp only [occurs, Bool.or_eq_true, isStart_iff, occurs_iff pat rest]
    exact (List.infix_cons_iff).symm

theorem prefix_shorten {α : Type} {p x y : List α} (h : p <+: x ++ y)
    (hl : p.length ≤ x.length) : p <+: x := by
  obtain ⟨t, ht⟩ := h
  have h1 : (x ++ y).take p.length = p := by rw [← ht, List.take_left]
  have h2 : (x ++ y).take p.length = x.take p.length := List.take_append_of_le_length hl
  have h3 : x.take p.length = p := by rw [← h2, h1]
  have h4 : x.take p.length ++ x.drop p.length = x := List.take_append_drop _ _
  rw [h3] at h4
  exact ⟨x.drop p.length, h4⟩

theorem isStart_append_self {α : Type} [DecidableEq α] (p t : List α) :
    isStart p (p ++ t) = true :=
  (isStart_iff _ _).2 (List.prefix_append _ _)

theorem backticks_data : "```".data = ['`', '`', '`'] := rfl

theorem fenceClose_data : fenceClose = ['\n', '`', '`', '`'] := rfl

theorem occurs_cons_false {pat : List Char} {c : Char} {rest : List Char}
    (h : occurs pat (c :: rest) = false) :
    isStart pat (c :: rest) = false ∧ occurs pat rest = false := by
  have heq : occurs pat (c :: rest) = (isStart pat (c :: rest) || occurs pat rest) := rfl
  rw [heq, Bool.or_eq_false_iff] at h
  exact h

theorem splitFirst_fenceClose :
    ∀ (body post : List Char), occurs fenceClose (body ++ ['\n', '`', '`']) = false →
    splitFirst fenceClose (body ++ fenceClose ++ post) = some (body, post)
  | [], post => by
    intro _
    show splitFirst fenceClose ('\n' :: ('`' :: '`' :: '`' :: post)) = some ([], post)
    simp only [splitFirst]
    rw [if_pos (by
      show isStart fenceClose (fenceClose ++ post) = true
      exact isStart_append_self _ _)]
    rfl
  | c :: b, post => by
    intro h
    have hsplit : isStart fenceClose (c :: (b ++ ['\n', '`', '`'])) = false ∧
        occurs fenceClose (b ++ ['\n', '`', '`']) = false :=
      occurs_cons_false (by exact h)
    have hns : isStart fenceClose ((c :: b) ++ fenceClose ++ post) = false := by
      rcases Bool.eq_false_or_eq_true
        (isStart fenceClose ((c :: b) ++ fenceClose ++ post)) with ht | hf
      swap
      · exact hf
      · exfalso
        have hpre : fenceClose <+: (c :: b) ++ fenceClose ++ post :=
          (isStart_iff _ _).1 ht
        have hshape : (c :: b) ++ fenceClose ++ post
            = ((c :: b) ++ ['\n', '`', '`']) ++ ('`' :: post) := by
          rw [fenceClose_data]
          simp
        rw [hshape] at hpre
        have hlen : fenceClose.length ≤ ((c :: b) ++ ['\n', '`', '`']).length := by
          rw [fenceClose_data]
          simp
        have hpre2 := prefix_shorten hpre hlen
        have hocc : occurs fenceClose ((c :: b) ++ ['\n', '`', '`']) = true :=
          (occurs_iff _ _).2 hpre2.isInfix
        rw [hocc] at h
        cases h
    show splitFirst fenceClose (c :: (b ++ fenceClose ++ post)) = some (c :: b, post)
    simp only [splitFirst]
    rw [if_neg (by
      show ¬(isStart fenceClose (c :: (b ++ fenceClose ++ post)) = true)
      intro hx
      rw [show (c :: (b ++ fenceClose ++ post)) = (c :: b) ++ fenceClose ++ post by simp]
        at hx
      rw [hns] at hx
      cases hx)]
    rw [splitFirst_fenceClose b post hsplit.2]

theorem searchFenceTag_cons (tag : List Char) (c : Char) (rest : List Char) :
    searchFenceTag tag (c :: rest)
      = match tryFenceAt (fenceOpen tag) (c :: rest) with
        | some body => some body
        | none =>
          match tryFenceAt (fenceOpen []) (c :: rest) with
          | some body => some body
          | none => searchFenceTag tag rest := rfl

theorem fenceOpen_starts_backticks (tg : List Char) : "```".data <+: fenceOpen tg := by
  refine ⟨tg ++ ['\n'], ?_⟩
  rw [fenceOpen, List.append_assoc]

theorem searchFenceTag_finds (lang body post : List Char)
    (hclose : occurs fenceClose (body ++ ['\n', '`', '`']) = false) :
    ∀ (pre : List Char), occurs "```".data (pre ++ ['`', '`']) = false →
    searchFenceTag lang (pre ++ (fenceOpen lang ++ (body ++ fenceClose ++ post)))
      = some body
  | [] => by
    intro _
    show searchFenceTag lang (fenceOpen lang ++ (body ++ fenceClose ++ post)) = some body
    obtain ⟨c0, T, hT⟩ : ∃ c0 T,
        fenceOpen lang ++ (body ++ fenceClose ++ post) = c0 :: T :=
      ⟨'`', '`' :: '`' :: (lang ++ '\n' :: (body ++ fenceClose ++ post)), by
        rw [fenceOpen, backticks_data]
        simp⟩
    rw [hT, searchFenceTag_cons, ← hT]
    have h1 : tryFenceAt (fenceOpen lang) (fenceOpen lang ++ (body ++ fenceClose ++ post))
        = some body := by
      unfold tryFenceAt
      rw [if_pos (isStart_append_self _ _), List.drop_left]
      rw [splitFirst_fenceClose body post hclose]
      rfl
    rw [h1]
  | c :: pre' => by
    intro hpre
    have hps : isStart "```".data (c :: (pre' ++ ['`', '`'])) = false ∧
        occurs "```".data (pre' ++ ['`', '`']) = false :=
      occurs_cons_false (by exact hpre)
    show searchFenceTag lang
      (c :: (pre' ++ (fenceOpen lang ++ (body ++ fenceClose ++ post)))) = some body
    rw [searchFenceTag_cons]
    have hng : ∀ tg : List Char,
        isStart (fenceOpen tg)
          (c :: (pre' ++ (fenceOpen lang ++ (body ++ fenceClose ++ post)))) = false := by
      intro tg
      rcases Bool.eq_false_or_eq_true (isStart (fenceOpen tg)
        (c :: (pre' ++ (fenceOpen lang ++ (body ++ fenceClose ++ post))))) with ht | hf
      swap
      · exact hf
      · exfalso
        have hpre1 : fenceOpen tg <+:
            c :: (pre' ++ (fenceOpen lang ++ (body ++ fenceClose ++ post))) :=
          (isStart_iff _ _).1 ht
        have hpre2 : "```".data <+:
            c :: (pre' ++ (fenceOpen lang ++ (body ++ fenceClose ++ post))) :=
          (fenceOpen_starts_backticks tg).trans hpre1
        have hshape : c :: (pre' ++ (fenceOpen lang ++ (body ++ fenceClose ++ post)))
            = ((c :: pre') ++ ['`', '`'])
              ++ ('`' :: (lang ++ '\n' :: (body ++ fenceClose ++ post))) := by
          rw [fenceOpen, backticks_data]
          simp
        rw [hshape] at hpre2
        have hlen : ("```".data).length ≤ ((c :: pre') ++ ['`', '`']).length := by
          rw [backticks_data]
          simp
        have hpre3 := prefix_shorten hpre2 hlen
        have hocc : occurs "```".data ((c :: pre') ++ ['`', '`']) = true :=
          (occurs_iff _ _).2 hpre3.isInfix
        rw [hocc] at hpre
        cases hpre
    have h1 : tryFenceAt (fenceOpen lang)
        (c :: (pre' ++ (fenceOpen lang ++ (body ++ fenceClose ++ post)))) = none := by
      unfold tryFenceAt
      rw [if_neg (by rw [hng lang]; exact Bool.false_ne_true)]
    have h2 : tryFenceAt (fenceOpen [])
        (c :: (pre' ++ (fenceOpen lang ++ (body ++ fenceClose ++ post)))) = none := by
      unfold tryFenceAt
      rw [if_neg (by rw [hng []]; exact Bool.false_ne_true)]
    rw [h1, h2]
    exact searchFenceTag_finds lang body post hclose pre' hps.2

theorem searchFenceW_none : ∀ (text : List Char),
    occurs "```".data text = false → searchFenceW text = none
  | [] => by intro _; rfl
  | c :: rest => by
    intro h
    have hps := occurs_cons_false h
    have hmo : matchOpenW (c :: rest) = none := by
      unfold matchOpenW
      rw [if_neg (by rw [hps.1]; exact Bool.false_ne_true)]
    show searchFenceW (c :: rest) = none
    rw [show searchFenceW (c :: rest)
        = (match matchOpenW (c :: rest) with
           | some r =>
             match splitFirst fenceClose r with
             | some (body, _) => some body
             | none => searchFenceW rest
           | none => searchFenceW rest) from rfl]
    rw [hmo]
    exact searchFenceW_none rest hps.2

/-- C8: extract_code_block returns the inner content of the first
triple-backtick fenced block, newlines preserved verbatim: when the text is
`pre ++ "```lang\n" ++ body ++ "\n```" ++ post`, the first fence opens after
`pre` and `body` contains no closing fence, the result is exactly `body`;
when the text has no triple backtick at all the result is absent; and the
spec's concrete example extracts `"print(1)"`. -/
theorem C8_extract_code_block :
    (∀ (pre lang body post : List Char), lang ≠ [] → lang.all isWordChar = true →
      occurs "```".data (pre ++ ['`', '`']) = false →
      occurs fenceClose (body ++ ['\n', '`', '`']) = false →
      extract_code_block (pre ++ (fenceOpen lang ++ (body ++ fenceClose ++ post)))
        (some lang) = .ok (some body)) ∧
    (∀ (text : List Char), occurs "```".data text = false →
      extract_code_block text none = .ok none) ∧
    extract_code_block ("text ```python\nprint(1)\n``` more".data) none
      = .ok (some ("print(1)".data)) := by
  refine ⟨?_, ?_, by decide⟩
  · intro pre lang body post hne hword hpre hclose
    simp only [extract_code_block]
    rw [if_neg (by simpa using hne), if_pos (regexCompiles_cbPattern lang hword)]
    rw [searchFenceTag_finds lang body post hclose pre hpre]
  · intro text h
    simp only [extract_code_block]
    rw [searchFenceW_none text h]

/-- C8 witness: the first-block characterization at the spec's example,
written with an explicit language tag. -/
theorem C8_witness :
    extract_code_block ("text ".data ++ (fenceOpen ("python".data) ++
        ("print(1)".data ++ fenceClose ++ " more".data))) (some ("python".data))
      = .ok (some ("print(1)".data)) :=
  C8_extract_code_block.1 "text ".data "python".data "print(1)".data " more".data
    (by decide) (by decide) (by decide) (by decide)

theorem find?_key_filter_pos {pred : List String → Bool} {q : List String}
    (hpq : pred q = true) :
    ∀ (nodes : List (List String × NodeKind)),
    (nodes.filter (fun e => pred e.1)).find? (fun e => decide (e.1 = q))
      = nodes.find? (fun e => decide (e.1 = q))
  | [] => rfl
  | e :: nodes => by
    by_cases he1 : pred e.1 = true
    · rw [@List.filter_cons_of_pos _ (fun e => pred e.1) e nodes he1]
      by_cases he2 : e.1 = q
      · rw [List.find?_cons_of_pos _ (by simp [he2]),
            List.find?_cons_of_pos _ (by simp [he2])]
      · rw [List.find?_cons_of_neg _ (by simp [he2]),
            List.find?_cons_of_neg _ (by simp [he2])]
        exact find?_key_filter_pos hpq nodes
    · rw [@List.filter_cons_of_neg _ (fun e => pred e.1) e nodes he1]
      have he2 : e.1 ≠ q := fun hc => he1 (hc ▸ hpq)
      rw [List.find?_cons_of_neg _ (by simp [he2])]
      exact find?_key_filter_pos hpq nodes

theorem find?_key_filter_neg {pred : List String → Bool} {q : List String}
    (hpq : pred q = false) :
    ∀ (nodes : List (List String × NodeKind)),
    (nodes.filter (fun e => pred e.1)).find? (fun e => decide (e.1 = q)) = none
  | [] => rfl
  | e :: nodes => by
    by_cases he1 : pred e.1 = true
    · rw [@List.filter_cons_of_pos _ (fun e => pred e.1) e nodes he1]
      have he2 : e.1 ≠ q := fun hc => by rw [hc, hpq] at he1; cases he1
      rw [List.find?_cons_of_neg _ (by simp [he2])]
      exact find?_key_filter_neg hpq nodes
    · rw [@List.filter_cons_of_neg _ (fun e => pred e.1) e nodes he1]
      exact find?_key_filter_neg hpq nodes

theorem lookupFS_mk_filter (pred : List String → Bool)
    (nodes : List (List String × NodeKind)) (failing : List (List String))
    (q : List String) :
    lookupFS ⟨nodes.filter (fun e => pred e.1), failing⟩ q
      = if pred q = true then lookupFS ⟨nodes, failing⟩ q else none := by
  by_cases hpq : pred q = true
  · rw [if_pos hpq]
    unfold lookupFS
    rw [find?_key_filter_pos hpq nodes]
  · rw [if_neg hpq]
    unfold lookupFS
    rw [find?_key_filter_neg (Bool.eq_false_iff.2 hpq) nodes]

theorem unlinkFS_ok {g : FS} {c : List String} (hfail : g.failing = [])
    (hk : lookupFS g c = some .file) :
    unlinkFS g c = .ok ⟨g.nodes.filter (fun e => !decide (e.1 = c)), g.failing⟩ := by
  unfold unlinkFS
  rw [if_neg (by rw [hfail]; simp), if_pos hk]

theorem rmtreeFS_ok {g : FS} {c : List String} (hfail : g.failing = [])
    (hk : lookupFS g c = some .dir) :
    rmtreeFS g c = .ok ⟨g.nodes.filter (fun e => !isStart c e.1), g.failing⟩ := by
  unfold rmtreeFS
  rw [if_neg (by rw [hfail]; simp), if_pos hk]

theorem lookupFS_unlink {g : FS} {c : List String} (q : List String) :
    lookupFS ⟨g.nodes.filter (fun e => !decide (e.1 = c)), g.failing⟩ q
      = if q = c then none else lookupFS g q := by
  rw [lookupFS_mk_filter (fun x => !decide (x = c)) g.nodes g.failing q]
  by_cases hq : q = c
  · rw [if_pos hq, if_neg (by simp [hq])]
  · rw [if_neg hq, if_pos (by simp [hq])]

theorem lookupFS_rmtree {g : FS} {c : List String} (q : List String) :
    lookupFS ⟨g.nodes.filter (fun e => !isStart c e.1), g.failing⟩ q
      = if isStart c q = true then none else lookupFS g q := by
  rw [lookupFS_mk_filter (fun x => !isStart c x) g.nodes g.failing q]
  by_cases hq : isStart c q = true
  · rw [if_pos hq, if_neg (by simp [hq])]
  · rw [if_neg hq, if_pos (by simp [Bool.eq_false_iff.2 hq])]

theorem findKey_isSome {p : List String} {k : NodeKind} :
    ∀ {l : List (List String × NodeKind)}, (p, k) ∈ l →
    (l.find? (fun e => decide (e.1 = p))).isSome = true := by
  intro l h
  induction l with
  | nil => cases h
  | cons e l ih =>
    by_cases he : e.1 = p
    · rw [List.find?_cons_of_pos _ (by simp [he])]; rfl
    · rcases List.mem_cons.1 h with h1 | h1
      · rw [← h1] at he; simp at he
      · rw [List.find?_cons_of_neg _ (by simp [he])]
        exact ih h1

theorem lookupFS_isSome_of_mem {fs : FS} {p : List String} {k : NodeKind}
    (h : (p, k) ∈ fs.nodes) : (lookupFS fs p).isSome = true := by
  have hfind := findKey_isSome h
  unfold lookupFS
  cases hf : fs.nodes.find? (fun e => decide (e.1 = p)) with
  | none => rw [hf] at hfind; cases hfind
  | some e => rfl

theorem findKey_of_mem_nodup {p : List String} {k : NodeKind} :
    ∀ {l : List (List String × NodeKind)},
    (l.map (fun e => e.1)).Nodup → (p, k) ∈ l →
    l.find? (fun e => decide (e.1 = p)) = some (p, k) := by
  intro l
  induction l with
  | nil => intro _ h; cases h
  | cons e l ih =>
    intro hnd h
    rcases List.mem_cons.1 h with h1 | h1
    · rw [← h1]
      rw [List.find?_cons_of_pos _ (by simp)]
    · have he : e.1 ≠ p := by
        intro hep
        have hmem : p ∈ l.map (fun e => e.1) := List.mem_map.2 ⟨(p, k), h1, rfl⟩
        have hn : e.1 ∉ l.map (fun e => e.1) := (List.nodup_cons.1 hnd).1
        rw [hep] at hn
        exact hn hmem
      rw [List.find?_cons_of_neg _ (by simp [he])]
      exact ih (List.nodup_cons.1 hnd).2 h1

theorem lookupFS_of_mem_nodup {fs : FS} {p : List String} {k : NodeKind}
    (hnd : (fs.nodes.map (fun e => e.1)).Nodup) (h : (p, k) ∈ fs.nodes) :
    lookupFS fs p = some k := by
  unfold lookupFS
  rw [findKey_of_mem_nodup hnd h]

theorem mem_of_lookupFS {fs : FS} {p : List String} {k : NodeKind}
    (h : lookupFS fs p = some k) : (p, k) ∈ fs.nodes := by
  unfold lookupFS at h
  cases hf : fs.nodes.find? (fun e => decide (e.1 = p)) with
  | none => rw [hf] at h; cases h
  | some e =>
    rw [hf] at h
    injection h with h2
    have he1 : e.1 = p := by simpa using List.find?_some hf
    have hm := List.mem_of_find?_eq_some hf
    have he : e = (p, k) := by
      cases e with
      | mk a b =>
        simp only at he1 h2
        rw [he1, h2]
    rw [← he]
    exact hm

theorem childPaths_eq_filter (p : List String) :
    ∀ (l : List (List String × NodeKind)),
    l.filterMap (fun e =>
        if e.1.length = p.length + 1 ∧ isStart p e.1 then some e.1 else none)
      = (l.map (fun e => e.1)).filter
          (fun q => decide (q.length = p.length + 1) && isStart p q)
  | [] => rfl
  | e :: l => by
    rw [List.filterMap_cons, List.map_cons]
    by_cases hcond : e.1.length = p.length + 1 ∧ isStart p e.1 = true
    · rw [if_pos hcond]
      rw [@List.filter_cons_of_pos _
        (fun q => decide (q.length = p.length + 1) && isStart p q) e.1 _
        (by simp [hcond.1, hcond.2])]
      rw [childPaths_eq_filter p l]
    · rw [if_neg hcond]
      rw [@List.filter_cons_of_neg _
        (fun q => decide (q.length = p.length + 1) && isStart p q) e.1 _
        (by simpa using fun h1 h2 => hcond ⟨h1, h2⟩)]
      exact childPaths_eq_filter p l

theorem mem_childPaths {fs : FS} {p c : List String} :
    c ∈ childPaths fs p
      ↔ (∃ k, (c, k) ∈ fs.nodes) ∧ c.length = p.length + 1 ∧ isStart p c = true := by
  unfold childPaths
  rw [childPaths_eq_filter]
  rw [List.mem_filter]
  constructor
  · rintro ⟨h1, h2⟩
    obtain ⟨e, he, he2⟩ := List.mem_map.1 h1
    simp only [Bool.and_eq_true, decide_eq_true_eq] at h2
    exact ⟨⟨e.2, by rw [← he2]; exact he⟩, h2.1, h2.2⟩
  · rintro ⟨⟨k, hk⟩, h1, h2⟩
    refine ⟨List.mem_map.2 ⟨(c, k), hk, rfl⟩, by simp [h1, h2]⟩

theorem childPaths_pairwise (fs : FS) (p : List String)
    (hnd : (fs.nodes.map (fun e => e.1)).Nodup) :
    (childPaths fs p).Pairwise
      (fun a b => ¬(isStart a b = true) ∧ ¬(isStart b a = true)) := by
  unfold childPaths
  rw [childPaths_eq_filter]
  have hnodup := hnd.filter
    (fun q => decide (q.length = p.length + 1) && isStart p q)
  refine hnodup.imp_of_mem ?_
  intro a b ha hb hne
  have ha2 := (List.mem_filter.1 ha).2
  have hb2 := (List.mem_filter.1 hb).2
  simp only [Bool.and_eq_true, decide_eq_true_eq] at ha2 hb2
  have hlen : a.length = b.length := by rw [ha2.1, hb2.1]
  constructor
  · intro hab
    exact hne (((isStart_iff a b).1 hab).eq_of_length hlen)
  · intro hba
    exact hne (((isStart_iff b a).1 hba).eq_of_length hlen.symm).symm

theorem isStart_refl {α : Type} [DecidableEq α] (a : List α) : isStart a a = true :=
  (isStart_iff a a).2 (List.prefix_refl a)

/-- One child-deletion step characterised: with no failure injection, the
child is removed (its whole subtree when it is a directory), everything else
is untouched, and no exception occurs. -/
theorem delChild_spec {g : FS} {c : List String} (hfail : g.failing = [])
    (hsome : (lookupFS g c).isSome = true) :
    ∃ g1, delChild g c = .ok g1 ∧ g1.failing = [] ∧
      ∀ q, lookupFS g1 q
        = if isStart c q = true ∧ (c = q ∨ lookupFS g c = some .dir) then none
          else lookupFS g q := by
  cases hk : lookupFS g c with
  | none => rw [hk] at hsome; cases hsome
  | some k =>
    cases k with
    | file =>
      refine ⟨⟨g.nodes.filter (fun e => !decide (e.1 = c)), g.failing⟩, ?_, hfail, ?_⟩
      · show delChild g c = _
        unfold delChild
        rw [hk]
        exact unlinkFS_ok hfail hk
      · intro q
        rw [lookupFS_unlink q]
        by_cases hq : q = c
        · rw [if_pos hq, if_pos ⟨by rw [hq]; exact isStart_refl c, Or.inl hq.symm⟩]
        · rw [if_neg hq, if_neg ?_]
          rintro ⟨hs, hd | hd⟩
          · exact hq hd.symm
          · simp at hd
    | dir =>
      refine ⟨⟨g.nodes.filter (fun e => !isStart c e.1), g.failing⟩, ?_, hfail, ?_⟩
      · show delChild g c = _
        unfold delChild
        rw [hk]
        exact rmtreeFS_ok hfail hk
      · intro q
        rw [lookupFS_rmtree q]
        by_cases hq : isStart c q = true
        · rw [if_pos hq, if_pos ⟨hq, Or.inr rfl⟩]
        · rw [if_neg hq, if_neg (fun hc => hq hc.1)]

theorem delChildren_spec :
    ∀ (cs : List (List String)) (g : FS),
    g.failing = [] →
    (∀ c ∈ cs, (lookupFS g c).isSome = true) →
    cs.Pairwise (fun a b => ¬(isStart a b = true) ∧ ¬(isStart b a = true)) →
    (delChildren g cs).2 = true ∧
    (delChildren g cs).1.failing = [] ∧
    (∀ q, (∃ c ∈ cs, isStart c q = true ∧ (c = q ∨ lookupFS g c = some .dir)) →
      lookupFS (delChildren g cs).1 q = none) ∧
    (∀ q, (∀ c ∈ cs, ¬(isStart c q = true ∧ (c = q ∨ lookupFS g c = some .dir))) →
      lookupFS (delChildren g cs).1 q = lookupFS g q)
  | [], g => by
    intro hfail _ _
    refine ⟨rfl, hfail, ?_, ?_⟩
    · rintro q ⟨c, hc, _⟩
      cases hc
    · intro q _
      rfl
  | c :: cs, g => by
    intro hfail hsome hpw
    obtain ⟨g1, hok, hfail1, hchar⟩ :=
      delChild_spec hfail (hsome c (List.mem_cons_self c cs))
    have hpwc := List.pairwise_cons.1 hpw
    have hlook : ∀ c2 ∈ cs, lookupFS g1 c2 = lookupFS g c2 := by
      intro c2 hc2
      rw [hchar c2, if_neg ?_]
      rintro ⟨hs, _⟩
      exact (hpwc.1 c2 hc2).1 hs
    have hsome1 : ∀ c2 ∈ cs, (lookupFS g1 c2).isSome = true := by
      intro c2 hc2
      rw [hlook c2 hc2]
      exact hsome c2 (List.mem_cons_of_mem _ hc2)
    obtain ⟨ih1, ih2, ih3, ih4⟩ := delChildren_spec cs g1 hfail1 hsome1 hpwc.2
    have hcondeq : ∀ c2 ∈ cs, ∀ q,
        (isStart c2 q = true ∧ (c2 = q ∨ lookupFS g1 c2 = some .dir))
          ↔ (isStart c2 q = true ∧ (c2 = q ∨ lookupFS g c2 = some .dir)) := by
      intro c2 hc2 q
      rw [hlook c2 hc2]
    have hstep : delChildren g (c :: cs) = delChildren g1 cs := by
      show (match delChild g c with
            | .ok fs1 => delChildren fs1 cs
            | .error _ => (g, false)) = _
      rw [hok]
    rw [hstep]
    refine ⟨ih1, ih2, ?_, ?_⟩
    · rintro q ⟨c0, hc0, hcond⟩
      rcases List.mem_cons.1 hc0 with hc0 | hc0
      · subst hc0
        have hq1 : lookupFS g1 q = none := by
          rw [hchar q, if_pos hcond]
        by_cases hcov : ∃ c2 ∈ cs,
            isStart c2 q = true ∧ (c2 = q ∨ lookupFS g1 c2 = some .dir)
        · obtain ⟨c2, hc2, hcond2⟩ := hcov
          exact ih3 q ⟨c2, hc2, hcond2⟩
        · rw [ih4 q, hq1]
          intro c2 hc2 hcond2
          exact hcov ⟨c2, hc2, hcond2⟩
      · exact ih3 q ⟨c0, hc0, ((hcondeq c0 hc0 q).2 hcond)⟩
    · intro q hnone
      have hq1 : lookupFS g1 q = lookupFS g q := by
        rw [hchar q, if_neg (hnone c (List.mem_cons_self c cs))]
      rw [ih4 q, hq1]
      intro c2 hc2 hcond2
      exact hnone c2 (List.mem_cons_of_mem _ hc2) ((hcondeq c2 hc2 q).1 hcond2)

/-- C5: cleanup on a known logical name, on a well-formed filesystem
(duplicate-free, prefix-closed with directory ancestors) with no injected
I/O failures: if no directory is at the path — it is missing, or a file sits
there, where `iterdir` raises — the call returns `False`; if the directory
exists the call returns `True`, the directory itself survives, and every
strict descendant is gone afterwards (files unlinked, sub-directories
removed recursively). -/
theorem C5_cleanup_known (base : List String) (fs : FS) (name : String)
    (segs : List String)
    (hname : List.lookup name requiredDirs = some segs)
    (hfail : fs.failing = [])
    (hnd : (fs.nodes.map (fun e => e.1)).Nodup)
    (hclosed : ∀ e ∈ fs.nodes, ∀ q ∈ e.1.inits, q ≠ [] → q ≠ e.1 →
      (q, NodeKind.dir) ∈ fs.nodes) :
    (lookupFS fs (base ++ segs) ≠ some NodeKind.dir →
      (cleanup_directory base name fs).1 = false) ∧
    (lookupFS fs (base ++ segs) = some NodeKind.dir →
      (cleanup_directory base name fs).1 = true ∧
      (lookupFS (cleanup_directory base name fs).2.1 (base ++ segs)).isSome = true ∧
      (∀ q, isStart (base ++ segs) q = true → q ≠ base ++ segs →
        lookupFS (cleanup_directory base name fs).2.1 q = none)) := by
  have hcu : cleanup_directory base name fs
      = (if (lookupFS fs (base ++ segs)).isSome = true then
          match iterdirFS fs (base ++ segs) with
          | .error _ => (false, fs, [.cleanFailed (base ++ segs)])
          | .ok children =>
            match delChildren fs children with
            | (fs1, true) => (true, fs1, [.cleaned (base ++ segs)])
            | (fs1, false) => (false, fs1, [.cleanFailed (base ++ segs)])
        else (false, fs, [])) := by
    unfold cleanup_directory
    rw [hname]
  constructor
  · intro hmiss
    rw [hcu]
    by_cases hex : (lookupFS fs (base ++ segs)).isSome = true
    · rw [if_pos hex]
      have hit : iterdirFS fs (base ++ segs) = .error () := by
        unfold iterdirFS
        rw [if_neg hmiss]
      rw [hit]
    · rw [if_neg hex]
  · intro hdir
    have hex : (lookupFS fs (base ++ segs)).isSome = true := by rw [hdir]; rfl
    have hit : iterdirFS fs (base ++ segs) = .ok (childPaths fs (base ++ segs)) := by
      unfold iterdirFS
      rw [if_pos hdir]
    have hcnodup := childPaths_pairwise fs (base ++ segs) hnd
    have hcsome : ∀ c ∈ childPaths fs (base ++ segs),
        (lookupFS fs c).isSome = true := by
      intro c hc
      obtain ⟨⟨k, hk⟩, _, _⟩ := mem_childPaths.1 hc
      exact lookupFS_isSome_of_mem hk
    obtain ⟨hsucc, _, hgone, hkeep⟩ :=
      delChildren_spec (childPaths fs (base ++ segs)) fs hfail hcsome hcnodup
    have hres : cleanup_directory base name fs
        = (true, (delChildren fs (childPaths fs (base ++ segs))).1,
           [.cleaned (base ++ segs)]) := by
      rw [hcu, if_pos hex, hit]
      show (match delChildren fs (childPaths fs (base ++ segs)) with
            | (fs1, true) => (true, fs1, [LogEvent.cleaned (base ++ segs)])
            | (fs1, false) => (false, fs1, [LogEvent.cleanFailed (base ++ segs)]))
          = (true, (delChildren fs (childPaths fs (base ++ segs))).1,
             [LogEvent.cleaned (base ++ segs)])
      rw [show delChildren fs (childPaths fs (base ++ segs))
          = ((delChildren fs (childPaths fs (base ++ segs))).1, true) from by
        rw [← hsucc]]
    refine ⟨by rw [hres], ?_, ?_⟩
    · have hc1 : ∀ c ∈ childPaths fs (base ++ segs),
          ¬(isStart c (base ++ segs) = true
            ∧ (c = base ++ segs ∨ lookupFS fs c = some .dir)) := by
        intro c hc hcond
        obtain ⟨_, hlen, _⟩ := mem_childPaths.1 hc
        have hle := ((isStart_iff _ _).1 hcond.1).length_le
        omega
      have hkeepP := hkeep (base ++ segs) hc1
      rw [hres]
      show (lookupFS (delChildren fs (childPaths fs (base ++ segs))).1
        (base ++ segs)).isSome = true
      rw [hkeepP]
      exact hex
    · intro q hsq hne
      rw [hres]
      show lookupFS (delChildren fs (childPaths fs (base ++ segs))).1 q = none
      by_cases hqmem : ∃ k, (q, k) ∈ fs.nodes
      · obtain ⟨k, hk⟩ := hqmem
        have hpq : (base ++ segs) <+: q := (isStart_iff _ _).1 hsq
        have hlenq : (base ++ segs).length + 1 ≤ q.length := by
          rcases Nat.eq_or_lt_of_le hpq.length_le with heq | hlt
          · exact absurd (hpq.eq_of_length heq) (fun he => hne he.symm)
          · omega
        set c := q.take ((base ++ segs).length + 1) with hcdef
        have hcq : c <+: q := ⟨q.drop ((base ++ segs).length + 1),
          List.take_append_drop _ _⟩
        have hclen : c.length = (base ++ segs).length + 1 := by
          rw [hcdef, List.length_take]
          omega
        have hpc : (base ++ segs) <+: c := by
          have hq2 : q = c ++ q.drop ((base ++ segs).length + 1) :=
            (List.take_append_drop _ _).symm
          rw [hq2] at hpq
          exact prefix_shorten hpq (by omega)
        have hcinits : c ∈ q.inits := (List.mem_inits c q).2 hcq
        by_cases hcq2 : c = q
        · have hqchild : q ∈ childPaths fs (base ++ segs) :=
            mem_childPaths.2 ⟨⟨k, hk⟩, by rw [← hcq2]; exact hclen, hsq⟩
          exact hgone q ⟨q, hqchild, isStart_refl q, Or.inl rfl⟩
        · have hcne : c ≠ [] := by
            intro h0
            rw [h0] at hclen
            simp at hclen
          have hcdir : (c, NodeKind.dir) ∈ fs.nodes :=
            hclosed (q, k) hk c hcinits hcne hcq2
          have hcchild : c ∈ childPaths fs (base ++ segs) :=
            mem_childPaths.2 ⟨⟨.dir, hcdir⟩, hclen, (isStart_iff _ _).2 hpc⟩
          refine hgone q ⟨c, hcchild, (isStart_iff _ _).2 hcq, Or.inr ?_⟩
          exact lookupFS_of_mem_nodup hnd hcdir
      · by_cases hcov : ∃ c ∈ childPaths fs (base ++ segs),
            isStart c q = true ∧ (c = q ∨ lookupFS fs c = some .dir)
        · exact hgone q hcov
        · rw [hkeep q (fun c hc hcond => hcov ⟨c, hc, hcond⟩)]
          cases hlq : lookupFS fs q with
          | none => rfl
          | some k => exact absurd ⟨k, mem_of_lookupFS hlq⟩ hqmem

/-- C5 witness: a concrete populated `output` directory is cleaned — the call
succeeds, `output` survives, and a nested file under a deleted sub-directory
is gone — while on a state where a file sits at the `output` path the call
fails (iterdir raises there). -/
theorem C5_witness :
    (cleanup_directory [] "output"
      ⟨[(["output"], .dir), (["output", "f"], .file), (["output", "d"], .dir),
        (["output", "d", "g"], .file)], []⟩).1 = true ∧
    (lookupFS (cleanup_directory [] "output"
      ⟨[(["output"], .dir), (["output", "f"], .file), (["output", "d"], .dir),
        (["output", "d", "g"], .file)], []⟩).2.1 ["output"]).isSome = true ∧
    lookupFS (cleanup_directory [] "output"
      ⟨[(["output"], .dir), (["output", "f"], .file), (["output", "d"], .dir),
        (["output", "d", "g"], .file)], []⟩).2.1 ["output", "d", "g"] = none ∧
    (cleanup_directory [] "output" ⟨[(["output"], .file)], []⟩).1 = false := by
  have h := (C5_cleanup_known [] ⟨[(["output"], .dir), (["output", "f"], .file),
      (["output", "d"], .dir), (["output", "d", "g"], .file)], []⟩ "output" ["output"]
      (by decide) rfl (by decide) (by decide)).2 (by decide)
  have h2 := (C5_cleanup_known [] ⟨[(["output"], .file)], []⟩ "output" ["output"]
      (by decide) rfl (by decide) (by decide)).1 (by decide)
  exact ⟨h.1, h.2.1, h.2.2 ["output", "d", "g"] (by decide) (by decide), h2⟩

